import Mathlib

/-!
Verification of the privacy-cash SDK client-side synchronization engine.

Shallow embedding of the sync engine found in the repository sources:
`src/unnamed/part_000` (storage-key derivation `localstorageKey`, the migration
engine `migrateStorageKeys`, the paginated sync loop `getUtxos` /
`fetchUserUtxos`, the spent checker `areUtxosSpent` / `isUtxoSpent`, and the
decryption pipeline `decrypt_outputs`), `src/src/utils/storage-key-encryption.ts`
(deterministic AES-GCM storage-key-name encryption and the `PrivacyCash`
class with `clearCache`), and `src/unnamed/part_002` (older `PrivacyCash`
variant).

Modelling conventions:
* Persistent key-value storage is an association list.  The code forms string
  keys by concatenating one of three fixed logical prefixes
  (`LSK_FETCH_OFFSET`, `LSK_ENCRYPTED_OUTPUTS`, `'tradeHistory'`, from the
  repository's `constants.js`, which is not included under `src/`) with a
  per-wallet suffix; we keep the pair `(prefix, suffix)` structured, which is
  faithful because the distinct constant prefixes make the concatenation
  injective across kinds.
* External collaborators — the remote indexer, the ledger account reader, the
  note-decryption service, SHA-256 / AES-GCM, base64 codecs, JSON
  (de)serialisation of string arrays, and PDA derivation — are opaque pure
  functions passed as parameters, exactly the shape in which the code consumes
  them (the Web-Crypto and JSON builtins are deterministic; the AES-GCM IV is
  computed from the wallet string, not drawn at random, so
  `encryptStorageKeyName` is a pure function of its two arguments).
* JavaScript `Number(string)` is modelled by `jsNum`; the `NaN` result is
  `none`.  Stored offsets written by this module are always decimal numerals;
  comparisons involving `NaN` are `false`, as in JS.
-/

/-- The three logical storage-key prefixes tracked by the engine:
`LSK_FETCH_OFFSET`, `LSK_ENCRYPTED_OUTPUTS` and the literal `'tradeHistory'`
(see `keysToMigrate` in `migrateStorageKeys`). -/
inductive Pfx
  | fetchOffset
  | encryptedOutputs
  | tradeHistory
deriving DecidableEq, Repr

/-- A storage key: logical prefix paired with the per-wallet suffix string. -/
abbrev KName := Pfx × String

/-- Persistent key-value storage (`CacheStorage` in `index.ts`), modelled as an
association list from key names to string values. -/
abbrev Storage := List (KName × String)

/-- Model of `storage.getItem(key)`: first binding of the key, if any. -/
def getItem : Storage → KName → Option String
  | [], _ => none
  | e :: s, k => if e.1 = k then some e.2 else getItem s k

/-- Model of `storage.setItem(key, value)`: overwrite the first binding or append. -/
def setItem : Storage → KName → String → Storage
  | [], k, v => [(k, v)]
  | e :: s, k, v => if e.1 = k then (k, v) :: s else e :: setItem s k v

/-- Model of `storage.removeItem(key)`: drop every binding of the key. -/
def removeItem : Storage → KName → Storage
  | [], _ => []
  | e :: s, k => if e.1 = k then removeItem s k else e :: removeItem s k

/-- Batch deletion (`chrome.storage.local.remove(keys[])` /
`Promise.all(keys.map(storage.removeItem))`). -/
def removeAll (s : Storage) (ks : List KName) : Storage :=
  ks.foldl removeItem s

theorem getItem_setItem_self (s : Storage) (k : KName) (v : String) :
    getItem (setItem s k v) k = some v := by
  induction s with
  | nil => simp [setItem, getItem]
  | cons e s ih =>
    by_cases h : e.1 = k <;> simp [setItem, getItem, h, ih]

theorem getItem_setItem_ne (s : Storage) (k k' : KName) (v : String)
    (h : k' ≠ k) : getItem (setItem s k v) k' = getItem s k' := by
  induction s with
  | nil => simp [setItem, getItem, Ne.symm h]
  | cons e s ih =>
    by_cases he : e.1 = k
    · simp [setItem, getItem, he, Ne.symm h]
    · simp only [setItem, he, if_false, getItem]
      by_cases he' : e.1 = k' <;> simp [he', ih]

theorem getItem_removeItem_self (s : Storage) (k : KName) :
    getItem (removeItem s k) k = none := by
  induction s with
  | nil => simp [removeItem, getItem]
  | cons e s ih =>
    by_cases h : e.1 = k <;> simp [removeItem, getItem, h, ih]

theorem getItem_removeItem_ne (s : Storage) (k k' : KName)
    (h : k' ≠ k) : getItem (removeItem s k) k' = getItem s k' := by
  induction s with
  | nil => simp [removeItem]
  | cons e s ih =>
    by_cases he : e.1 = k
    · simp [removeItem, getItem, he, Ne.symm h, ih]
    · simp only [removeItem, he, if_false, getItem]
      by_cases he' : e.1 = k' <;> simp [he', ih]

theorem removeItem_absent (s : Storage) (k : KName)
    (h : getItem s k = none) : removeItem s k = s := by
  induction s with
  | nil => rfl
  | cons e s ih =>
    by_cases he : e.1 = k
    · simp [getItem, he] at h
    · simp only [getItem, he, if_false] at h
      simp [removeItem, he, ih h]

theorem getItem_removeAll_none (s : Storage) (ks : List KName) (k : KName)
    (h : getItem s k = none) : getItem (removeAll s ks) k = none := by
  induction ks generalizing s with
  | nil => exact h
  | cons a ks ih =>
    by_cases ha : a = k
    · exact ih _ (by rw [ha]; exact getItem_removeItem_self s k)
    · exact ih _ (by rw [getItem_removeItem_ne s a k (Ne.symm ha)]; exact h)

theorem getItem_removeAll_mem (s : Storage) (ks : List KName) (k : KName)
    (h : k ∈ ks) : getItem (removeAll s ks) k = none := by
  induction ks generalizing s with
  | nil => cases h
  | cons a ks ih =>
    rcases List.mem_cons.mp h with rfl | h'
    · show getItem (removeAll (removeItem s k) ks) k = none
      exact getItem_removeAll_none _ _ _ (getItem_removeItem_self s k)
    · exact ih _ h'

theorem getItem_removeAll_not_mem (s : Storage) (ks : List KName) (k : KName)
    (h : k ∉ ks) : getItem (removeAll s ks) k = getItem s k := by
  induction ks generalizing s with
  | nil => rfl
  | cons a ks ih =>
    have hak : k ≠ a := fun he => h (by simp [he])
    have := ih (removeItem s a) (fun hm => h (List.mem_cons_of_mem _ hm))
    rw [removeAll, List.foldl_cons] at *
    rw [this, getItem_removeItem_ne s a k hak]

theorem removeAll_absent (s : Storage) (ks : List KName)
    (h : ∀ k ∈ ks, getItem s k = none) : removeAll s ks = s := by
  induction ks with
  | nil => rfl
  | cons a ks ih =>
    rw [removeAll, List.foldl_cons,
        removeItem_absent s a (h a (List.mem_cons_self a ks))]
    exact ih (fun k hk => h k (List.mem_cons_of_mem _ hk))

/-! ## JavaScript value helpers -/

/-- JavaScript `Number(string)` restricted to the values this module stores:
`Number('') = 0`, a string of decimal digits parses to its value, anything
else is `NaN` (`none`). -/
def jsNum (s : String) : Option Int :=
  if s = "" then some 0
  else if s.toList.all Char.isDigit then
    some (s.toList.foldl (fun a c => a * 10 + (c.toNat - 48)) 0 : Nat)
  else none

/-- The comparison `Number(a) > Number(b)` used by the `fetch_offset` merge;
any comparison against `NaN` is `false`. -/
def jsGtNum (a b : String) : Bool :=
  match jsNum a, jsNum b with
  | some x, some y => decide (x > y)
  | _, _ => false

/-- Iteration of `Set` insertion: keep an element when it has not been seen
yet. -/
def jsDedupGo {α : Type} [DecidableEq α] (seen : List α) : List α → List α
  | [] => []
  | x :: xs =>
    if x ∈ seen then jsDedupGo seen xs
    else x :: jsDedupGo (x :: seen) xs

/-- JavaScript `[...new Set(l)]`: deduplicate keeping first occurrences in
insertion order. -/
def jsDedup {α : Type} [DecidableEq α] (l : List α) : List α :=
  jsDedupGo [] l

theorem mem_jsDedupGo {α : Type} [DecidableEq α] (seen l : List α) (a : α) :
    a ∈ jsDedupGo seen l ↔ a ∈ l ∧ a ∉ seen := by
  induction l generalizing seen with
  | nil => simp [jsDedupGo]
  | cons x xs ih =>
    by_cases hx : x ∈ seen
    · rw [jsDedupGo, if_pos hx, ih]
      constructor
      · rintro ⟨h1, h2⟩
        exact ⟨List.mem_cons_of_mem _ h1, h2⟩
      · rintro ⟨h1, h2⟩
        rcases List.mem_cons.mp h1 with rfl | h1
        · exact absurd hx h2
        · exact ⟨h1, h2⟩
    · rw [jsDedupGo, if_neg hx]
      by_cases hax : a = x
      · subst hax
        simp [hx]
      · simp only [List.mem_cons, hax, false_or]
        rw [ih (x :: seen)]
        simp [List.mem_cons, hax]

theorem nodup_jsDedupGo {α : Type} [DecidableEq α] (seen l : List α) :
    (jsDedupGo seen l).Nodup := by
  induction l generalizing seen with
  | nil => simp [jsDedupGo]
  | cons x xs ih =>
    by_cases hx : x ∈ seen
    · rw [jsDedupGo, if_pos hx]
      exact ih seen
    · rw [jsDedupGo, if_neg hx]
      refine List.nodup_cons.mpr ⟨fun hmem => ?_, ih (x :: seen)⟩
      exact ((mem_jsDedupGo _ _ _).mp hmem).2 (List.mem_cons_self _ _)

theorem mem_jsDedup {α : Type} [DecidableEq α] (l : List α) (a : α) :
    a ∈ jsDedup l ↔ a ∈ l := by
  rw [jsDedup, mem_jsDedupGo]
  simp

theorem nodup_jsDedup {α : Type} [DecidableEq α] (l : List α) :
    (jsDedup l).Nodup :=
  nodup_jsDedupGo [] l

/-- Rendering of one parsed history entry back to a string
(`NaN` prints as `"NaN"`). -/
def jsNumStr : Option Int → String
  | some i => toString i
  | none => "NaN"

/-- Splitter loop for `string.split(',')` (structurally recursive so that concrete runs
compute): split on commas, `''.split(',') = ['']`. -/
def splitCommaGo (acc : List Char) : List Char → List String
  | [] => [String.mk acc.reverse]
  | c :: cs =>
    if c = ',' then String.mk acc.reverse :: splitCommaGo [] cs
    else splitCommaGo (c :: acc) cs

/-- Model of `string.split(',')`. -/
def jsSplitComma (s : String) : List String :=
  splitCommaGo [] s.toList

/-- Model of `array.join(',')`. -/
def jsJoinComma : List String → String
  | [] => ""
  | [x] => x
  | x :: xs => x ++ "," ++ jsJoinComma xs

/-- Model of `value.split(',').map(n => Number(n))` for the `tradeHistory` payload. -/
def histParse (v : String) : List (Option Int) :=
  (jsSplitComma v).map jsNum

/-- Model of `list.join(',')` for the `tradeHistory` payload. -/
def histEnc (l : List (Option Int)) : String :=
  jsJoinComma (l.map jsNumStr)

/-- Reading the persisted recent-activity value: the code guards with
`if (rec?.length)` before parsing, so an absent or empty value yields `[]`. -/
def histRead : Option String → List (Option Int)
  | some r => if r = "" then [] else histParse r
  | none => []

/-- The descending comparator `(a, b) => b - a` used by
`merged.sort((a, b) => b - a)`, as a total Boolean order on parsed entries.
JSON never produces `NaN` and the verified state space is `NaN`-free; the
model orders `NaN` below every number to keep the comparator total. -/
def jsDescLe (a b : Option Int) : Bool :=
  match a, b with
  | _, none => true
  | none, some _ => false
  | some x, some y => decide (y ≤ x)

/-- Relation form of `jsDescLe`, for `List.insertionSort`. -/
def jsr (a b : Option Int) : Prop := jsDescLe a b = true

instance : DecidableRel jsr := fun _ _ => instDecidableEqBool _ _

instance : IsTotal (Option Int) jsr := by
  constructor
  intro a b
  cases a <;> cases b <;> simp [jsr, jsDescLe] <;> omega

instance : IsTrans (Option Int) jsr := by
  constructor
  intro a b c hab hbc
  cases a <;> cases b <;> cases c <;>
    simp_all [jsr, jsDescLe] <;> omega

/-- Model of `merged.sort((a, b) => b - a)`: on duplicate-free input the result of the
JS sort is the unique descending ordering, realised here by insertion sort. -/
def jsSortDesc (l : List (Option Int)) : List (Option Int) :=
  l.insertionSort jsr

/-! ## MigrationEngine (`migrateStorageKeys`, part_000 lines 1152-1306)

The repository carries two textual variants of `migrateStorageKeys`
(part_000 lines 182-627 and 1152-1306).  Their migration logic is identical;
the former only adds debug logging, a debug marker write, and mirrored
reads/writes against a secondary `chrome.storage.local` backing that shadow
the same data.  We embed the consolidated logic over the single storage
model.  The three suffixes `o` (legacy `localstorageKeyOld`), `h` (hashed
`localstorageKey(pk, null)`) and `n` (current `localstorageKey(pk, encKey)`)
are parameters, being outputs of the external crypto primitives. -/

/-- JSON (de)serialisation of string arrays as used for the
`encrypted_outputs` payload (`JSON.parse` / `JSON.stringify`), opaque but
pure; `jparse` returns `none` when `JSON.parse` would throw. -/
structure JsonOps where
  jparse : String → Option (List String)
  jenc : List String → String

/-- The `encrypted_outputs` merge: parse both sides, union via `Set`,
re-serialise.  `none` models the `catch` branch (keep the destination
value, do not write). -/
def mergeOutputsVal (J : JsonOps) (srcVal dstVal : String) : Option String :=
  match J.jparse srcVal, J.jparse dstVal with
  | some a, some b => some (J.jenc (jsDedup (a ++ b)))
  | _, _ => none

/-- The `tradeHistory` merge: split both sides on `','`, union via `Set`,
sort descending, keep the 20 largest, re-join. -/
def mergeHistoryVal (srcVal dstVal : String) : String :=
  histEnc ((jsSortDesc (jsDedup (histParse srcVal ++ histParse dstVal))).take 20)

/-- One migration leg for one data kind: the value to write at the
destination key, given the source value and the current destination value
(`none` = no write).  An absent destination receives the source verbatim;
otherwise the kind-specific merge runs (`fetch_offset`: keep the larger
`Number`). -/
def migrateValue (J : JsonOps) (p : Pfx) (srcVal : String)
    (dst : Option String) : Option String :=
  match dst with
  | none => some srcVal
  | some dstVal =>
    match p with
    | .encryptedOutputs => mergeOutputsVal J srcVal dstVal
    | .tradeHistory => some (mergeHistoryVal srcVal dstVal)
    | .fetchOffset => if jsGtNum srcVal dstVal then some srcVal else none

/-- One migration leg's storage effect for kind `p`, given the source-key
value `src` (e.g. `storage.getItem(oldKey)`): absent source means no write,
otherwise write `migrateValue` to the destination key `(p, n)` when it
produces a value. -/
def migrateLegStore (J : JsonOps) (p : Pfx) (n : String)
    (src : Option String) (s : Storage) : Storage :=
  match src with
  | some srcVal =>
    match migrateValue J p srcVal (getItem s (p, n)) with
    | some v => setItem s (p, n) v
    | none => s
  | none => s

/-- The body of the `for (const { prefix, name } of keysToMigrate)` loop for
one kind `p`, storage effect: the legacy→current leg, then, when `needsMig`
(`!!encryptionKey && hashedKeySuffix !== newKeySuffix`), the
hashed→encrypted leg (whose source is read from the post-leg-1 storage).
The source spells the two identical merge blocks out verbatim; they are
factored into `migrateLegStore`. -/
def migrateKindStore (J : JsonOps) (needsMig : Bool) (o h n : String)
    (p : Pfx) (s : Storage) : Storage :=
  let s1 := migrateLegStore J p n (getItem s (p, o)) s
  if needsMig then migrateLegStore J p n (getItem s1 (p, h)) s1 else s1

/-- The keys the kind-`p` loop body pushes onto `oldKeysToDelete`: the legacy
key unconditionally (both branches of the source push it), and the hashed
key exactly when the hashed→encrypted leg ran and found a value. -/
def migrateKindDels (J : JsonOps) (needsMig : Bool) (o h n : String)
    (p : Pfx) (s : Storage) : List KName :=
  let s1 := migrateLegStore J p n (getItem s (p, o)) s
  [(p, o)] ++ (if needsMig && (getItem s1 (p, h)).isSome then [(p, h)] else [])

/-- The migration pass for a fixed `needsMigration` flag: process the three
kinds in source order while accumulating the marked keys, then delete all
marked keys in one batch at the end. -/
def migrateCore (J : JsonOps) (nm : Bool) (o h n : String)
    (s : Storage) : Storage :=
  let s1 := migrateKindStore J nm o h n .fetchOffset s
  let s2 := migrateKindStore J nm o h n .encryptedOutputs s1
  let s3 := migrateKindStore J nm o h n .tradeHistory s2
  let dels := migrateKindDels J nm o h n .fetchOffset s
      ++ migrateKindDels J nm o h n .encryptedOutputs s1
      ++ migrateKindDels J nm o h n .tradeHistory s2
  removeAll s3 dels

/-- Model of `migrateStorageKeys(publicKey, storage, encryptionKey?)`:
`needsMigration = !!encryptionKey && hashedKeySuffix !== newKeySuffix`,
then the three-kind migration pass. -/
def migrateStorageKeys (J : JsonOps) (hasEncKey : Bool) (o h n : String)
    (s : Storage) : Storage :=
  migrateCore J (hasEncKey && decide (h ≠ n)) o h n s

theorem migrateLegStore_frame (J : JsonOps) (p : Pfx) (n : String)
    (src : Option String) (s : Storage) (k : KName) (hk : k ≠ (p, n)) :
    getItem (migrateLegStore J p n src s) k = getItem s k := by
  cases src with
  | none => rfl
  | some srcVal =>
    show getItem (match migrateValue J p srcVal (getItem s (p, n)) with
        | some v => setItem s (p, n) v
        | none => s) k = getItem s k
    cases migrateValue J p srcVal (getItem s (p, n)) with
    | none => rfl
    | some v => exact getItem_setItem_ne s (p, n) k v hk

theorem migrateKindStore_frame (J : JsonOps) (nm : Bool) (o h n : String)
    (p : Pfx) (s : Storage) (k : KName) (hk : k ≠ (p, n)) :
    getItem (migrateKindStore J nm o h n p s) k = getItem s k := by
  unfold migrateKindStore
  cases nm with
  | false => exact migrateLegStore_frame J p n _ s k hk
  | true =>
    rw [if_pos rfl]
    rw [migrateLegStore_frame J p n _ _ k hk,
        migrateLegStore_frame J p n _ s k hk]

theorem migrateLegStore_noop (J : JsonOps) (p : Pfx) (n : String)
    (s : Storage) : migrateLegStore J p n none s = s := rfl

theorem migrateKindStore_noop (J : JsonOps) (nm : Bool) (o h n : String)
    (p : Pfx) (s : Storage) (ho : getItem s (p, o) = none)
    (hh : nm = true → getItem s (p, h) = none) :
    migrateKindStore J nm o h n p s = s := by
  unfold migrateKindStore
  rw [ho]
  cases nm with
  | false => rfl
  | true =>
    rw [if_pos rfl]
    show migrateLegStore J p n (getItem (migrateLegStore J p n none s) (p, h))
        (migrateLegStore J p n none s) = s
    rw [migrateLegStore_noop, hh rfl]
    rfl

theorem migrateKindDels_noop (J : JsonOps) (nm : Bool) (o h n : String)
    (p : Pfx) (s : Storage) (ho : getItem s (p, o) = none)
    (hh : nm = true → getItem s (p, h) = none) :
    migrateKindDels J nm o h n p s = [(p, o)] := by
  simp only [migrateKindDels, ho, migrateLegStore_noop]
  cases nm with
  | false => rfl
  | true => simp [hh rfl]

theorem migrateKindDels_mem (J : JsonOps) (nm : Bool) (o h n : String)
    (p : Pfx) (s : Storage) (k : KName)
    (hk : k ∈ migrateKindDels J nm o h n p s) :
    k = (p, o) ∨ (nm = true ∧ k = (p, h)) := by
  simp only [migrateKindDels, List.mem_append, List.mem_singleton] at hk
  rcases hk with h1 | h2
  · exact Or.inl h1
  · split at h2
    · rename_i hb
      simp only [Bool.and_eq_true] at hb
      exact Or.inr ⟨hb.1, List.mem_singleton.mp h2⟩
    · cases h2

/-- After one kind's loop body, the hashed key is either value-free or
marked for deletion (hashed-leg writes go to the distinct current key). -/
theorem migrateKind_hashed_cleared (J : JsonOps) (nm : Bool) (o h n : String)
    (p : Pfx) (s : Storage) (hnm : nm = true) (hhn : h ≠ n) :
    getItem (migrateKindStore J nm o h n p s) (p, h) = none ∨
      (p, h) ∈ migrateKindDels J nm o h n p s := by
  subst hnm
  have hk : ((p, h) : KName) ≠ (p, n) := by
    intro he; exact hhn (congrArg Prod.snd he)
  simp only [migrateKindStore, migrateKindDels, if_true, Bool.true_and]
  cases hh : getItem (migrateLegStore J p n (getItem s (p, o)) s) (p, h) with
  | none =>
    exact Or.inl (by rw [migrateLegStore_frame J p n _ _ _ hk]; exact hh)
  | some v =>
    refine Or.inr ?_
    simp

/-- The legacy key of every kind is value-free after a migration pass. -/
theorem migrateCore_old_cleared (J : JsonOps) (nm : Bool) (o h n : String)
    (s : Storage) (p : Pfx) :
    getItem (migrateCore J nm o h n s) (p, o) = none := by
  apply getItem_removeAll_mem
  have hmem : ∀ (t : Storage), (p, o) ∈ migrateKindDels J nm o h n p t := by
    intro t
    simp [migrateKindDels]
  cases p with
  | fetchOffset =>
    exact List.mem_append_left _ (List.mem_append_left _ (hmem s))
  | encryptedOutputs =>
    exact List.mem_append_left _ (List.mem_append_right _ (hmem _))
  | tradeHistory =>
    exact List.mem_append_right _ (hmem _)

/-- When the hashed→encrypted leg is enabled, the hashed key of every kind
is value-free after a migration pass. -/
theorem migrateCore_hashed_cleared (J : JsonOps) (nm : Bool) (o h n : String)
    (s : Storage) (p : Pfx) (hb : nm = true) (hne : h ≠ n) :
    getItem (migrateCore J nm o h n s) (p, h) = none := by
  have frame_ne : ∀ (p' : Pfx) (t : Storage), p' ≠ p →
      getItem (migrateKindStore J nm o h n p' t) (p, h) = getItem t (p, h) := by
    intro p' t hp
    exact migrateKindStore_frame J nm o h n p' t (p, h)
      (fun he' => hp (congrArg Prod.fst he').symm)
  cases p with
  | fetchOffset =>
    rcases migrateKind_hashed_cleared J nm o h n .fetchOffset s hb hne
        with h1 | h2
    · apply getItem_removeAll_none
      rw [frame_ne _ _ (by decide), frame_ne _ _ (by decide)]
      exact h1
    · exact getItem_removeAll_mem _ _ _
        (List.mem_append_left _ (List.mem_append_left _ h2))
  | encryptedOutputs =>
    rcases migrateKind_hashed_cleared J nm o h n .encryptedOutputs
        (migrateKindStore J nm o h n .fetchOffset s) hb hne with h1 | h2
    · apply getItem_removeAll_none
      rw [frame_ne _ _ (by decide)]
      exact h1
    · exact getItem_removeAll_mem _ _ _
        (List.mem_append_left _ (List.mem_append_right _ h2))
  | tradeHistory =>
    rcases migrateKind_hashed_cleared J nm o h n .tradeHistory
        (migrateKindStore J nm o h n .encryptedOutputs
          (migrateKindStore J nm o h n .fetchOffset s)) hb hne with h1 | h2
    · exact getItem_removeAll_none _ _ _ h1
    · exact getItem_removeAll_mem _ _ _ (List.mem_append_right _ h2)

theorem migrateCore_idem (J : JsonOps) (nm : Bool) (o h n : String)
    (hne : nm = true → h ≠ n) (s : Storage) :
    migrateCore J nm o h n (migrateCore J nm o h n s) =
      migrateCore J nm o h n s := by
  set m := migrateCore J nm o h n s with hm
  have kold : ∀ p : Pfx, getItem m (p, o) = none :=
    fun p => migrateCore_old_cleared J nm o h n s p
  have kh : ∀ p : Pfx, nm = true → getItem m (p, h) = none :=
    fun p hb => migrateCore_hashed_cleared J nm o h n s p hb (hne hb)
  have e1 : migrateKindStore J nm o h n .fetchOffset m = m :=
    migrateKindStore_noop _ _ _ _ _ _ _ (kold _) (kh _)
  have e2 : migrateKindStore J nm o h n .encryptedOutputs m = m :=
    migrateKindStore_noop _ _ _ _ _ _ _ (kold _) (kh _)
  have e3 : migrateKindStore J nm o h n .tradeHistory m = m :=
    migrateKindStore_noop _ _ _ _ _ _ _ (kold _) (kh _)
  have d1 : migrateKindDels J nm o h n .fetchOffset m = [(.fetchOffset, o)] :=
    migrateKindDels_noop _ _ _ _ _ _ _ (kold _) (kh _)
  have d2 : migrateKindDels J nm o h n .encryptedOutputs m
      = [(.encryptedOutputs, o)] :=
    migrateKindDels_noop _ _ _ _ _ _ _ (kold _) (kh _)
  have d3 : migrateKindDels J nm o h n .tradeHistory m = [(.tradeHistory, o)] :=
    migrateKindDels_noop _ _ _ _ _ _ _ (kold _) (kh _)
  show removeAll
      (migrateKindStore J nm o h n .tradeHistory
        (migrateKindStore J nm o h n .encryptedOutputs
          (migrateKindStore J nm o h n .fetchOffset m)))
      (migrateKindDels J nm o h n .fetchOffset m
        ++ migrateKindDels J nm o h n .encryptedOutputs
            (migrateKindStore J nm o h n .fetchOffset m)
        ++ migrateKindDels J nm o h n .tradeHistory
            (migrateKindStore J nm o h n .encryptedOutputs
              (migrateKindStore J nm o h n .fetchOffset m))) = m
  rw [e1, e2, e3, d1, d2, d3]
  apply removeAll_absent
  intro k hk
  simp only [List.mem_append, List.mem_singleton] at hk
  rcases hk with (rfl | rfl) | rfl <;> exact kold _

/-- C3: `migrateStorageKeys` is idempotent: for every starting storage
state (and fixed wallet suffixes / optional session key), running the
migration twice leaves storage exactly as running it once. -/
theorem migrateStorageKeys_idempotent (J : JsonOps) (hasEncKey : Bool)
    (o h n : String) (s : Storage) :
    migrateStorageKeys J hasEncKey o h n
        (migrateStorageKeys J hasEncKey o h n s) =
      migrateStorageKeys J hasEncKey o h n s := by
  apply migrateCore_idem
  intro hb
  simp only [Bool.and_eq_true, decide_eq_true_eq] at hb
  exact hb.2

/-- C4: Fetch-offset merge keeps the numeric maximum: when a value exists
under the older-generation source key (legacy key, or hashed key with the
hashed→encrypted leg enabled while the other source is absent) and a value
also exists under the current destination key, the post-migration value
under the destination key parses to `max` of the two numbers. -/
theorem migrateStorageKeys_fetchOffset_max (J : JsonOps) (he : Bool)
    (o h n : String) (s : Storage) (a b : Int) (oa nb : String)
    (hon : o ≠ n)
    (hpa : jsNum oa = some a) (hpb : jsNum nb = some b)
    (hdst : getItem s (Pfx.fetchOffset, n) = some nb)
    (hsrc : (getItem s (Pfx.fetchOffset, o) = some oa ∧
              ((he && decide (h ≠ n)) = false ∨
                getItem s (Pfx.fetchOffset, h) = none))
          ∨ (getItem s (Pfx.fetchOffset, o) = none ∧
             getItem s (Pfx.fetchOffset, h) = some oa ∧
             (he && decide (h ≠ n)) = true)) :
    ∃ v, getItem (migrateStorageKeys J he o h n s) (Pfx.fetchOffset, n)
          = some v ∧
         jsNum v = some (max a b) := by
  set nm := he && decide (h ≠ n) with hnm
  have hg : jsGtNum oa nb = decide (a > b) := by
    unfold jsGtNum
    rw [hpa, hpb]
  have hmerge : ∀ t : Storage, getItem t (Pfx.fetchOffset, n) = some nb →
      getItem (migrateLegStore J .fetchOffset n (some oa) t)
        (Pfx.fetchOffset, n) = some (if a > b then oa else nb) := by
    intro t ht
    by_cases hab : a > b
    · simp [migrateLegStore, migrateValue, ht, hg, hab, getItem_setItem_self]
    · simp [migrateLegStore, migrateValue, ht, hg, hab]
  have hval : getItem (migrateKindStore J nm o h n .fetchOffset s)
      (Pfx.fetchOffset, n) = some (if a > b then oa else nb) := by
    rcases hsrc with ⟨ho, hcl⟩ | ⟨ho, hh, hmm⟩
    · rcases hcl with hf | hnoh
      · simp only [migrateKindStore, ho, hf, Bool.false_eq_true, if_false]
        exact hmerge s hdst
      · simp only [migrateKindStore, ho]
        cases hb : nm with
        | false =>
          simp only [Bool.false_eq_true, if_false]
          exact hmerge s hdst
        | true =>
          have hne : h ≠ n := by
            have hb' := hb
            rw [hnm, Bool.and_eq_true, decide_eq_true_eq] at hb'
            exact hb'.2
          simp only [if_true]
          have hs1h : getItem (migrateLegStore J .fetchOffset n (some oa) s)
              (Pfx.fetchOffset, h) = none := by
            rw [migrateLegStore_frame _ _ _ _ _ _
              (fun he' => hne (congrArg Prod.snd he'))]
            exact hnoh
          rw [hs1h, migrateLegStore_noop]
          exact hmerge s hdst
    · have hne : h ≠ n := by
        have hb' := hmm
        rw [hnm, Bool.and_eq_true, decide_eq_true_eq] at hb'
        exact hb'.2
      simp only [migrateKindStore, ho, migrateLegStore_noop, hmm, if_true]
      rw [hh]
      exact hmerge s hdst
  refine ⟨if a > b then oa else nb, ?_, ?_⟩
  · show getItem (migrateCore J nm o h n s) (Pfx.fetchOffset, n) = _
    have hfr1 : ∀ t : Storage,
        getItem (migrateKindStore J nm o h n .encryptedOutputs t)
          (Pfx.fetchOffset, n) = getItem t (Pfx.fetchOffset, n) :=
      fun t => migrateKindStore_frame _ _ _ _ _ _ _ _
        (by intro he'; simp at he')
    have hfr2 : ∀ t : Storage,
        getItem (migrateKindStore J nm o h n .tradeHistory t)
          (Pfx.fetchOffset, n) = getItem t (Pfx.fetchOffset, n) :=
      fun t => migrateKindStore_frame _ _ _ _ _ _ _ _
        (by intro he'; simp at he')
    show getItem (removeAll _ _) (Pfx.fetchOffset, n) = _
    rw [getItem_removeAll_not_mem]
    · rw [hfr2, hfr1]
      exact hval
    · intro hk
      have hhn2 : nm = true → h ≠ n := by
        intro hb'
        rw [hnm, Bool.and_eq_true, decide_eq_true_eq] at hb'
        exact hb'.2
      simp only [List.mem_append] at hk
      rcases hk with (hk | hk) | hk
      · rcases migrateKindDels_mem _ _ _ _ _ _ _ _ hk with hko | ⟨hbnm, hkh⟩
        · exact hon (congrArg Prod.snd hko).symm
        · exact hhn2 hbnm (congrArg Prod.snd hkh).symm
      · rcases migrateKindDels_mem _ _ _ _ _ _ _ _ hk with hko | ⟨_, hkh⟩
        · simp at hko
        · simp at hkh
      · rcases migrateKindDels_mem _ _ _ _ _ _ _ _ hk with hko | ⟨_, hkh⟩
        · simp at hko
        · simp at hkh
  · by_cases hab : a > b
    · rw [if_pos hab, hpa, max_eq_left (le_of_lt hab)]
    · rw [if_neg hab, hpb, max_eq_right (Int.not_lt.mp hab)]

/-- Witness for C4: legacy offset `"50"`, current offset `"30"` merge to the
numeric maximum `50` (no session key supplied). -/
theorem migrateStorageKeys_fetchOffset_max_witness :
    ∃ v, getItem
        (migrateStorageKeys ⟨fun _ => none, fun _ => ""⟩ false "O" "H" "N"
          [((Pfx.fetchOffset, "O"), "50"), ((Pfx.fetchOffset, "N"), "30")])
        (Pfx.fetchOffset, "N") = some v ∧
      jsNum v = some (max 50 30) :=
  migrateStorageKeys_fetchOffset_max ⟨fun _ => none, fun _ => ""⟩ false
    "O" "H" "N" _ 50 30 "50" "30" (by decide) (by decide) (by decide)
    (by decide) (Or.inl ⟨by decide, Or.inl rfl⟩)

/-! ## StorageKeyDirectory (`localstorageKey`, `hashPublicKey`,
`encryptStorageKeyName`) and `PrivacyCash.clearCache` -/

/-- The two process-wide memoization tables `publicKeyHashCache` and
`publicKeyEncryptionCache` (JS `Map`s; insertion at the front with
first-match lookup is observationally the same as `Map.set`/`Map.get`). -/
structure KeyCaches where
  hashC : List (String × String)
  encC : List (String × String)

/-- Lookup (`Map.get`) on a memoization table. -/
def cacheLookup : List (String × String) → String → Option String
  | [], _ => none
  | e :: c, k => if e.1 = k then some e.2 else cacheLookup c k

theorem cacheLookup_insert_self (c : List (String × String))
    (k v : String) : cacheLookup ((k, v) :: c) k = some v := by
  simp [cacheLookup]

/-- Model of `encryptStorageKeyName(publicKeyString, encryptionKey)`
(storage-key-encryption.ts lines 22-73): decode the session key from
base64, derive the IV as the first 12 bytes of `SHA256(publicKeyString)`
(deterministic — no randomness source appears in the function), AES-GCM
encrypt the wallet string, and base64url-encode `IV ‖ ciphertext`.
`sha256`, `aesGcmEnc` (key → iv → plaintext → ciphertext), `b64url` and
`atobBytes` are the Web-Crypto/encoding primitives, opaque pure
functions. -/
def encryptStorageKeyName (sha256 : String → List Nat)
    (aesGcmEnc : List Nat → List Nat → String → List Nat)
    (b64url : List Nat → String) (atobBytes : String → List Nat)
    (publicKeyString encryptionKey : String) : String :=
  let keyBytes := atobBytes encryptionKey
  let iv := (sha256 publicKeyString).take 12
  let encrypted := aesGcmEnc keyBytes iv publicKeyString
  b64url (iv ++ encrypted)

/-- Model of `hashPublicKey(publicKey)`: memoized
`base64url(SHA256(publicKey.toString()))`. -/
def hashPublicKey (sha256 : String → List Nat) (b64url : List Nat → String)
    (c : KeyCaches) (keyString : String) : String × KeyCaches :=
  match cacheLookup c.hashC keyString with
  | some v => (v, c)
  | none =>
    let v := b64url (sha256 keyString)
    (v, { c with hashC := (keyString, v) :: c.hashC })

/-- Model of `localstorageKey(key, encryptionKey?)`: contract prefix plus the
encrypted wallet string when a (truthy) encryption key is available,
memoized under `keyString + ':' + encryptionKey`; otherwise the hashed
fallback.  Returns the suffix together with the updated caches. -/
def localstorageKey (sha256 : String → List Nat)
    (aesGcmEnc : List Nat → List Nat → String → List Nat)
    (b64url : List Nat → String) (atobBytes : String → List Nat)
    (contractPrefix : String) (c : KeyCaches) (keyString : String)
    (encryptionKey : Option String) : String × KeyCaches :=
  match encryptionKey with
  | some ek =>
    if ek = "" then
      let r := hashPublicKey sha256 b64url c keyString
      (contractPrefix ++ r.1, r.2)
    else
      let cacheKey := keyString ++ ":" ++ ek
      match cacheLookup c.encC cacheKey with
      | some v => (contractPrefix ++ v, c)
      | none =>
        let v := encryptStorageKeyName sha256 aesGcmEnc b64url atobBytes
          keyString ek
        (contractPrefix ++ v, { c with encC := (cacheKey, v) :: c.encC })
  | none =>
    let r := hashPublicKey sha256 b64url c keyString
    (contractPrefix ++ r.1, r.2)

/-- C9: Storage-key suffix derivation is deterministic: starting from any
memoization state, a second call with the same wallet string and the same
optional encryption key returns the identical string; and from fresh caches
the result is exactly the pure derivation — base64url-SHA-256 of the wallet
string for the hashed form, and AES-GCM under the wallet-derived IV for the
encrypted form. -/
theorem localstorageKey_deterministic (sha256 : String → List Nat)
    (aesGcmEnc : List Nat → List Nat → String → List Nat)
    (b64url : List Nat → String) (atobBytes : String → List Nat)
    (contractPrefix : String) (c : KeyCaches) (keyString : String)
    (encryptionKey : Option String) :
    (localstorageKey sha256 aesGcmEnc b64url atobBytes contractPrefix
        (localstorageKey sha256 aesGcmEnc b64url atobBytes contractPrefix
          c keyString encryptionKey).2 keyString encryptionKey).1
      = (localstorageKey sha256 aesGcmEnc b64url atobBytes contractPrefix
          c keyString encryptionKey).1 ∧
    (localstorageKey sha256 aesGcmEnc b64url atobBytes contractPrefix
        ⟨[], []⟩ keyString encryptionKey).1
      = contractPrefix ++
          (match encryptionKey with
           | some ek =>
             if ek = "" then b64url (sha256 keyString)
             else encryptStorageKeyName sha256 aesGcmEnc b64url atobBytes
               keyString ek
           | none => b64url (sha256 keyString)) := by
  constructor
  · cases encryptionKey with
    | none =>
      simp only [localstorageKey, hashPublicKey]
      cases hl : cacheLookup c.hashC keyString with
      | some v => simp [hl]
      | none => simp [hl, cacheLookup_insert_self]
    | some ek =>
      by_cases hek : ek = ""
      · simp only [localstorageKey, hashPublicKey, if_pos hek]
        cases hl : cacheLookup c.hashC keyString with
        | some v => simp [hl]
        | none => simp [hl, cacheLookup_insert_self]
      · simp only [localstorageKey, if_neg hek]
        cases hl : cacheLookup c.encC (keyString ++ ":" ++ ek) with
        | some v => simp [hl]
        | none => simp [hl, cacheLookup_insert_self]
  · cases encryptionKey with
    | none => simp [localstorageKey, hashPublicKey, cacheLookup]
    | some ek =>
      by_cases hek : ek = "" <;>
        simp [localstorageKey, hashPublicKey, cacheLookup, hek]

/-- Model of `PrivacyCash.clearCache()` (storage-key-encryption.ts lines 275-285):
remove the fetch-offset and ciphertext-cache entries under the wallet's
current-generation suffix `σ = localstorageKey(publicKey,
storageKeyEncryptionKey)`. -/
def clearCache (σ : String) (s : Storage) : Storage :=
  removeItem (removeItem s (Pfx.fetchOffset, σ)) (Pfx.encryptedOutputs, σ)

/-- C10: `clearCache` removes exactly the fetch-offset and
ciphertext-cache entries under the wallet's current-generation suffix:
every other key — in particular the `tradeHistory` entry under the same
suffix, and every entry whose suffix belongs to another wallet — is
unchanged. -/
theorem clearCache_frame (σ : String) (s : Storage) (k : KName) :
    getItem (clearCache σ s) k =
      if k = (Pfx.fetchOffset, σ) ∨ k = (Pfx.encryptedOutputs, σ) then none
      else getItem s k := by
  by_cases h1 : k = (Pfx.fetchOffset, σ)
  · subst h1
    rw [if_pos (Or.inl rfl), clearCache,
        getItem_removeItem_ne _ _ _ (by simp), getItem_removeItem_self]
  · by_cases h2 : k = (Pfx.encryptedOutputs, σ)
    · subst h2
      rw [if_pos (Or.inr rfl), clearCache, getItem_removeItem_self]
    · rw [if_neg (by tauto), clearCache,
          getItem_removeItem_ne _ _ _ h2, getItem_removeItem_ne _ _ _ h1]

/-! ## DecryptionPipeline (`decrypt_outputs`, part_000 lines 965-1017) -/

/-- A decrypted note (`Utxo`): amount (`BN`, read via `.toNumber()`), ledger
index, and the nullifier derivation input.  `getNullifier()` and the
amount/keypair internals live in external model classes; the nullifier is
carried as an opaque string. -/
structure Utxo where
  amount : Int
  index : Int
  nullifier : String
deriving DecidableEq, Repr

/-- Per-item decryption result (`DecryptRes` in the source). -/
inductive DecRes
  | decrypted (utxo : Utxo) (encryptedOutput : String)
  | skipped
  | unDecrypted
deriving DecidableEq, Repr

/-- One iteration of the decryption loop: falsy (empty) ciphertexts are
skipped, `encryptionService.decryptUtxo` throwing (`none`) yields
`unDecrypted`. -/
def decOne (dec : String → Option Utxo) (encryptedOutput : String) : DecRes :=
  if encryptedOutput = "" then .skipped
  else
    match dec encryptedOutput with
    | some u => .decrypted u encryptedOutput
    | none => .unDecrypted

/-- Model of `results.filter(r => r.status == 'decrypted')`, keeping the note and its
source ciphertext. -/
def decSurvivors : List DecRes → List (Utxo × String)
  | [] => []
  | .decrypted u e :: rs => (u, e) :: decSurvivors rs
  | .skipped :: rs => decSurvivors rs
  | .unDecrypted :: rs => decSurvivors rs

/-- The index-update step: `if (utxo.index !== j.indices[i] && typeof
j.indices[i] == 'number') utxo.index = j.indices[i]`.  A `none` element
models a non-number JSON value (JSON cannot encode `NaN`). -/
def updIndex (p : Utxo × String) (ji : Option Int) : Utxo × String :=
  match ji with
  | some v => if p.1.index ≠ v then ({ p.1 with index := v }, p.2) else p
  | none => p

/-- Model of `decrypt_outputs(encryptedOutputs, ...)`: decrypt each item
independently, keep the survivors; when any survive, resolve their canonical
ledger indices via one `POST /utxos/indices` call (`resolve`), failing
(`throw`) when the response lacks an array of exactly one index per
surviving ciphertext; finally overwrite each note's index with the
resolved one. -/
def decrypt_outputs (dec : String → Option Utxo)
    (resolve : List String → Option (List (Option Int)))
    (encryptedOutputs : List String) : Except Unit (List (Utxo × String)) :=
  let results := encryptedOutputs.map (decOne dec)
  let survivors := decSurvivors results
  if survivors.isEmpty then .ok []
  else
    match resolve (survivors.map Prod.snd) with
    | none => .error ()
    | some indices =>
      if indices.length ≠ survivors.length then .error ()
      else .ok (List.zipWith updIndex survivors indices)

theorem decSurvivors_append (a b : List DecRes) :
    decSurvivors (a ++ b) = decSurvivors a ++ decSurvivors b := by
  induction a with
  | nil => rfl
  | cons r rs ih => cases r <;> simp [decSurvivors, ih]

theorem updIndex_snd (p : Utxo × String) (ji : Option Int) :
    (updIndex p ji).2 = p.2 := by
  cases ji with
  | none => rfl
  | some v =>
    unfold updIndex
    by_cases hv : p.1.index ≠ v <;> simp [hv]

theorem updIndex_some_index (p : Utxo × String) (v : Int) :
    (updIndex p (some v)).1.index = v := by
  unfold updIndex
  by_cases hv : p.1.index ≠ v
  · simp [hv]
  · simp [hv]
    omega

theorem zipWith_updIndex_snd (surv : List (Utxo × String))
    (l : List (Option Int)) (hl : l.length = surv.length) :
    (List.zipWith updIndex surv l).map Prod.snd = surv.map Prod.snd := by
  induction surv generalizing l with
  | nil => simp
  | cons p ps ih =>
    cases l with
    | nil => simp at hl
    | cons ji l' =>
      simp only [List.zipWith_cons_cons, List.map_cons, updIndex_snd]
      rw [ih l' (by simpa using hl)]

/-- C5: `decrypt_outputs` is strictly per-item: deleting an
undecryptable (or empty) ciphertext anywhere in the batch leaves the result
unchanged, so one item's failure never suppresses another item's note; and
on a well-formed index-resolution response the call succeeds with the
survivors in input order, each note's ledger index overwritten by the
resolver's authoritative numeric value. -/
theorem decrypt_outputs_per_item (dec : String → Option Utxo)
    (resolve : List String → Option (List (Option Int)))
    (pre post : List String) (bad : String) (l : List (Option Int))
    (hbad : bad = "" ∨ dec bad = none) :
    decrypt_outputs dec resolve (pre ++ bad :: post)
      = decrypt_outputs dec resolve (pre ++ post) ∧
    (resolve ((decSurvivors ((pre ++ post).map (decOne dec))).map Prod.snd)
        = some l →
     l.length = (decSurvivors ((pre ++ post).map (decOne dec))).length →
     decrypt_outputs dec resolve (pre ++ post)
        = .ok (List.zipWith updIndex
            (decSurvivors ((pre ++ post).map (decOne dec))) l) ∧
     (List.zipWith updIndex
         (decSurvivors ((pre ++ post).map (decOne dec))) l).map Prod.snd
        = (decSurvivors ((pre ++ post).map (decOne dec))).map Prod.snd ∧
     ∀ (i : Nat) (v : Int), l[i]? = some (some v) →
       ((List.zipWith updIndex
           (decSurvivors ((pre ++ post).map (decOne dec))) l)[i]?).map
         (fun p : Utxo × String => p.1.index) = some v) := by
  have hsb : decSurvivors ((pre ++ bad :: post).map (decOne dec))
      = decSurvivors ((pre ++ post).map (decOne dec)) := by
    rw [List.map_append, List.map_cons, decSurvivors_append,
        List.map_append, decSurvivors_append]
    congr 1
    show decSurvivors (decOne dec bad :: post.map (decOne dec)) = _
    by_cases hbb : bad = ""
    · simp [decOne, hbb, decSurvivors]
    · rcases hbad with hb | hb
      · exact absurd hb hbb
      · simp [decOne, hbb, hb, decSurvivors]
  constructor
  · simp only [decrypt_outputs]
    rw [hsb]
  · intro hres hlen
    cases hE : (decSurvivors ((pre ++ post).map (decOne dec))).isEmpty with
    | true =>
      have hnil : decSurvivors ((pre ++ post).map (decOne dec)) = [] :=
        List.isEmpty_iff.mp hE
      have hlnil : l = [] := by
        rw [hnil] at hlen
        exact List.length_eq_zero.mp hlen
      subst hlnil
      have hnil' : decSurvivors
          (List.map (decOne dec) pre ++ List.map (decOne dec) post) = [] := by
        rw [← List.map_append]
        exact hnil
      rw [hnil]
      refine ⟨?_, by simp, ?_⟩
      · simp [decrypt_outputs, hnil, hnil']
      · intro i v hiv
        simp at hiv
    | false =>
      have hmain : decrypt_outputs dec resolve (pre ++ post)
          = .ok (List.zipWith updIndex
              (decSurvivors ((pre ++ post).map (decOne dec))) l) := by
        have hres' : resolve (List.map Prod.snd (decSurvivors
            (List.map (decOne dec) pre ++ List.map (decOne dec) post)))
            = some l := by
          rw [← List.map_append]
          exact hres
        have hlen' : l.length = (decSurvivors
            (List.map (decOne dec) pre ++ List.map (decOne dec) post)).length := by
          rw [← List.map_append]
          exact hlen
        have hne : ¬ decSurvivors
            (List.map (decOne dec) pre ++ List.map (decOne dec) post) = [] := by
          rw [← List.map_append]
          intro hc
          rw [hc] at hE
          simp at hE
        simp [decrypt_outputs, hres', hlen', hne]
      refine ⟨hmain, zipWith_updIndex_snd _ _ hlen, ?_⟩
      intro i v hiv
      have hil : i < l.length := by
        rcases List.getElem?_eq_some_iff.mp hiv with ⟨hlt, _⟩
        exact hlt
      have his : i < (decSurvivors ((pre ++ post).map (decOne dec))).length := by
        omega
      obtain ⟨p, hp⟩ : ∃ p,
          (decSurvivors ((pre ++ post).map (decOne dec)))[i]? = some p :=
        ⟨_, List.getElem?_eq_getElem his⟩
      rw [List.getElem?_zipWith', hp, hiv]
      simp [updIndex_some_index]

/-- Witness for C5: the undecryptable ciphertext `"x"` does not suppress the
decryptable `"a"`, and the resolver's index `7` lands in the result. -/
theorem decrypt_outputs_per_item_witness :
    decrypt_outputs (fun s => if s = "x" then none else some ⟨1, 0, s⟩)
        (fun ls => some (ls.map (fun _ => some 7))) (["a"] ++ "x" :: [])
      = decrypt_outputs (fun s => if s = "x" then none else some ⟨1, 0, s⟩)
          (fun ls => some (ls.map (fun _ => some 7))) (["a"] ++ []) ∧
    ((fun ls => some (ls.map (fun _ => (some 7 : Option Int))))
        ((decSurvivors ((["a"] ++ []).map
          (decOne (fun s => if s = "x" then none else some ⟨1, 0, s⟩)))).map
            Prod.snd)
        = some [some 7] →
     ([some 7] : List (Option Int)).length
        = (decSurvivors ((["a"] ++ []).map
            (decOne (fun s => if s = "x" then none else some ⟨1, 0, s⟩)))).length →
     decrypt_outputs (fun s => if s = "x" then none else some ⟨1, 0, s⟩)
        (fun ls => some (ls.map (fun _ => some 7))) (["a"] ++ [])
        = .ok (List.zipWith updIndex
            (decSurvivors ((["a"] ++ []).map
              (decOne (fun s => if s = "x" then none else some ⟨1, 0, s⟩))))
            [some 7]) ∧
     (List.zipWith updIndex
         (decSurvivors ((["a"] ++ []).map
           (decOne (fun s => if s = "x" then none else some ⟨1, 0, s⟩))))
         [some 7]).map Prod.snd
        = (decSurvivors ((["a"] ++ []).map
            (decOne (fun s => if s = "x" then none else some ⟨1, 0, s⟩)))).map
              Prod.snd ∧
     ∀ (i : Nat) (v : Int), ([some 7] : List (Option Int))[i]? = some (some v) →
       ((List.zipWith updIndex
           (decSurvivors ((["a"] ++ []).map
             (decOne (fun s => if s = "x" then none else some ⟨1, 0, s⟩))))
           [some 7])[i]?).map (fun p : Utxo × String => p.1.index) = some v) :=
  decrypt_outputs_per_item
    (fun s => if s = "x" then none else some ⟨1, 0, s⟩)
    (fun ls => some (ls.map (fun _ => some 7)))
    ["a"] [] "x" [some 7] (Or.inr rfl)

/-! ## SpentChecker (`areUtxosSpent` / `isUtxoSpent`, part_000 lines 862-951)

`pda0`/`pda1` model the two deterministic marker-address derivations
(`findProgramAddressSync` over the `"nullifier0"`/`"nullifier1"` seeds and
the nullifier bytes); `acct addr = true` models
`getMultipleAccountsInfo`/`getAccountInfo` returning a non-null account.
The catch-retry wrapper re-runs the same pure computation after a delay, so
it is the identity in a failure-free ledger model. -/

/-- The `allPDAs` accumulation loop: for each note (at running index `i`),
push `(i, nullifier0PDA)` and `(i, nullifier1PDA)`. -/
def buildPDAs (pda0 pda1 : String → String) : Nat → List Utxo →
    List (Nat × String)
  | _, [] => []
  | i, u :: us =>
    (i, pda0 u.nullifier) :: (i, pda1 u.nullifier) ::
      buildPDAs pda0 pda1 (i + 1) us

/-- The flag-setting loop: `if (results[i] !== null)
spentFlags[allPDAs[i].utxoIndex] = true`, with `results[i] = acct pdaᵢ`. -/
def setFlags (acct : String → Bool) (pdas : List (Nat × String))
    (flags : List Bool) : List Bool :=
  pdas.foldl (fun fl ip => if acct ip.2 then fl.set ip.1 true else fl) flags

/-- Model of `areUtxosSpent(connection, utxos)`: flags over
`new Array(utxos.length).fill(false)`. -/
def areUtxosSpent (pda0 pda1 : String → String) (acct : String → Bool)
    (utxos : List Utxo) : List Bool :=
  setFlags acct (buildPDAs pda0 pda1 0 utxos)
    (List.replicate utxos.length false)

/-- Whether one note is spent according to the ledger oracle: either marker
account exists (`isUtxoSpent`'s result in the failure-free model). -/
def isUtxoSpent (pda0 pda1 : String → String) (acct : String → Bool)
    (u : Utxo) : Bool :=
  acct (pda0 u.nullifier) || acct (pda1 u.nullifier)

theorem setFlags_getElem? (acct : String → Bool) (pdas : List (Nat × String))
    (flags : List Bool) (j : Nat) :
    (setFlags acct pdas flags)[j]? =
      (flags[j]?).map
        (fun b => b || pdas.any (fun ip => decide (ip.1 = j) && acct ip.2)) := by
  induction pdas generalizing flags with
  | nil =>
    simp [setFlags]
  | cons ip l ih =>
    show (setFlags acct l (if acct ip.2 then flags.set ip.1 true else flags))[j]?
      = _
    rw [ih]
    by_cases ha : acct ip.2 = true
    · rw [if_pos ha]
      by_cases hij : ip.1 = j
      · subst hij
        by_cases hlt : ip.1 < flags.length
        · rw [List.getElem?_set_eq hlt,
              List.getElem?_eq_getElem hlt]
          simp [ha]
        · rw [List.getElem?_set, if_pos rfl, if_neg hlt,
              List.getElem?_eq_none (Nat.le_of_not_lt hlt)]
          simp
      · rw [List.getElem?_set_ne hij]
        cases flags[j]? with
        | none => simp
        | some b => simp [List.any_cons, hij, ha]
    · rw [if_neg ha]
      have ha' : acct ip.2 = false := by
        cases hb2 : acct ip.2
        · rfl
        · exact absurd hb2 ha
      cases flags[j]? with
      | none => simp
      | some b => simp [List.any_cons, ha']

theorem buildPDAs_any_lt (pda0 pda1 : String → String) (acct : String → Bool)
    (us : List Utxo) (k j : Nat) (hj : j < k) :
    (buildPDAs pda0 pda1 k us).any
      (fun ip => decide (ip.1 = j) && acct ip.2) = false := by
  induction us generalizing k with
  | nil => rfl
  | cons u us ih =>
    have hkj : ¬ (k = j) := by omega
    simp [buildPDAs, hkj, ih (k + 1) (by omega)]

theorem buildPDAs_any_get (pda0 pda1 : String → String) (acct : String → Bool)
    (us : List Utxo) (k d : Nat) (hd : d < us.length) :
    (buildPDAs pda0 pda1 k us).any
        (fun ip => decide (ip.1 = k + d) && acct ip.2)
      = isUtxoSpent pda0 pda1 acct (us.get ⟨d, hd⟩) := by
  induction us generalizing k d with
  | nil => cases hd
  | cons u us ih =>
    cases d with
    | zero =>
      simp [buildPDAs, isUtxoSpent,
        buildPDAs_any_lt pda0 pda1 acct us (k + 1) k (by omega)]
    | succ d' =>
      have hkj : ¬ (k = k + (d' + 1)) := by omega
      have hd' : d' < us.length := by
        simpa using Nat.lt_of_succ_lt_succ hd
      have hrw : k + (d' + 1) = (k + 1) + d' := by omega
      simp only [buildPDAs, List.any_cons, hkj, decide_eq_true_eq,
        decide_eq_false_iff_not.mpr hkj, Bool.false_and, Bool.false_or]
      rw [hrw, ih (k + 1) d' hd']
      rfl

/-- Lemma: `areUtxosSpent` computes, position by position, exactly "either marker
account exists for this note". -/
theorem areUtxosSpent_eq_map (pda0 pda1 : String → String)
    (acct : String → Bool) (utxos : List Utxo) :
    areUtxosSpent pda0 pda1 acct utxos
      = utxos.map (isUtxoSpent pda0 pda1 acct) := by
  apply List.ext_getElem?
  intro j
  rw [areUtxosSpent, setFlags_getElem?]
  by_cases hj : j < utxos.length
  · rw [List.getElem?_replicate, if_pos hj]
    have hb := buildPDAs_any_get pda0 pda1 acct utxos 0 j hj
    rw [Nat.zero_add] at hb
    rw [List.getElem?_map, List.getElem?_eq_getElem hj]
    simp [hb]
  · rw [List.getElem?_replicate, if_neg hj,
        List.getElem?_map, List.getElem?_eq_none
          (by simpa using Nat.le_of_not_lt hj)]
    rfl

/-! ## SyncEngine (`getUtxos` / `fetchUserUtxos`, part_000 lines 629-861)

The remote indexer, decryption service and ledger reader are oracles in
`SyncEnv`.  `pageAt start` is the extracted `encrypted_outputs` list and
`hasMore` flag of `GET /utxos/range?start=start&end=start+FETCH_UTXOS_GROUP_SIZE`
(for the array response form the code keeps only items with a truthy
`encrypted_output`; `pageAt` models the already-extracted list, and `len` is
its length, i.e. `encryptedOutputs.length` in the source).  `data.total` and
the module-level `roundStartIndex` / `decryptionTaskFinished` counters feed
progress logging only and are omitted. -/

/-- One remote page: extracted ciphertext list plus the `hasMore` flag. -/
structure Page where
  outputs : List String
  hasMore : Bool
deriving DecidableEq, Repr

/-- The external collaborators of one synchronization. -/
structure SyncEnv where
  pageAt : Int → Page
  dec : String → Option Utxo
  resolve : List String → Option (List (Option Int))
  pda0 : String → String
  pda1 : String → String
  acct : String → Bool
  J : JsonOps

/-- Result record of `fetchUserUtxos`. -/
structure FetchRes where
  encryptedOutputs : List String
  utxos : List Utxo
  hasMore : Bool
  len : Nat
deriving Repr

/-- Model of `offsetStr ? Number(offsetStr) : 0` — absent and empty values read as
`0`.  A non-numeric stored offset (JS `NaN`) is outside the verified state
space; the model reads it as `0`. -/
def readOffset (v : Option String) : Int :=
  match v with
  | none => 0
  | some str => if str = "" then 0 else (jsNum str).getD 0

/-- Model of `fetchUserUtxos({ url: ...start=offset..., ... })`: fetch one page,
decrypt it, and — on the final page (`!data.hasMore`) — additionally decrypt
the wallet's cached ciphertexts when a (truthy) cache value exists
(`JSON.parse` of a corrupt cache value throws).  Returns the decrypted
notes with their ciphertexts, the page's `hasMore`, and the raw page
length. -/
def fetchUserUtxos (env : SyncEnv) (σ : String) (s : Storage)
    (offset : Int) : Except Unit FetchRes :=
  let page := env.pageAt offset
  match decrypt_outputs env.dec env.resolve page.outputs with
  | .error e => .error e
  | .ok batch =>
    if page.hasMore then
      .ok ⟨batch.map Prod.snd, batch.map Prod.fst, page.hasMore,
        page.outputs.length⟩
    else
      match getItem s (Pfx.encryptedOutputs, σ) with
      | none =>
        .ok ⟨batch.map Prod.snd, batch.map Prod.fst, page.hasMore,
          page.outputs.length⟩
      | some cs =>
        if cs = "" then
          .ok ⟨batch.map Prod.snd, batch.map Prod.fst, page.hasMore,
            page.outputs.length⟩
        else
          match env.J.jparse cs with
          | none => .error ()
          | some cachedOutputs =>
            match decrypt_outputs env.dec env.resolve cachedOutputs with
            | .error e => .error e
            | .ok cbatch =>
              .ok ⟨batch.map Prod.snd ++ cbatch.map Prod.snd,
                batch.map Prod.fst ++ cbatch.map Prod.fst,
                page.hasMore, page.outputs.length⟩

/-- The mutable locals of the `getUtxos` closure (`valid_utxos`,
`valid_strings`, `history_indexes`) together with the persistent storage. -/
structure LoopState where
  s : Storage
  validUtxos : List Utxo
  validStrings : List String
  history : List Int
deriving DecidableEq, Repr

/-- One iteration of the `while (true)` sync loop: read the persisted
offset, fetch and decrypt the page, record every note's index into the
history, spent-check the positive-amount notes and keep the unspent ones,
then persist `offset + fetched.len` — the write happens in the returned
state whether the loop then breaks (`hasMore` false) or continues.
A fetch failure aborts the iteration with no storage write, carrying the
untouched storage. -/
def syncStep (env : SyncEnv) (σ : String) (st : LoopState) :
    Except Storage (LoopState × Bool) :=
  let offset := readOffset (getItem st.s (Pfx.fetchOffset, σ))
  match fetchUserUtxos env σ st.s offset with
  | .error _ => .error st.s
  | .ok fetched =>
    let pairs := fetched.utxos.zip fetched.encryptedOutputs
    let history' := st.history ++ fetched.utxos.map Utxo.index
    let nonZero := pairs.filter (fun p => p.1.amount > 0)
    let spentFlags := areUtxosSpent env.pda0 env.pda1 env.acct
      (nonZero.map Prod.fst)
    let newValid := (nonZero.zip spentFlags).filterMap
      (fun pf => if pf.2 then none else some pf.1)
    let s' := setItem st.s (Pfx.fetchOffset, σ)
      (toString (offset + (fetched.len : Int)))
    .ok (⟨s', st.validUtxos ++ newValid.map Prod.fst,
      st.validStrings ++ newValid.map Prod.snd, history'⟩, fetched.hasMore)

/-- The `while (true)` loop: iterate until a page reports no more data.
Fuel bounds the iteration count; exhausted fuel models a non-terminating
feed as a failure.  Errors carry the persistent storage as it stood when
the exception propagated. -/
def syncLoop (env : SyncEnv) (σ : String) : Nat → LoopState →
    Except Storage LoopState
  | 0, st => .error st.s
  | fuel + 1, st =>
    match syncStep env σ st with
    | .error e => .error e
    | .ok (st', cont) =>
      if cont then syncLoop env σ fuel st' else .ok st'

/-- The post-loop persistence: merge the collected history indices with the
persisted recent-activity value, keep the 20 numerically largest distinct
entries, persist them when non-empty, then persist the deduplicated
unspent-ciphertext set. -/
def finalizeSync (env : SyncEnv) (σ : String) (st : LoopState) :
    List Utxo × Storage :=
  let recIndexes := histRead (getItem st.s (Pfx.tradeHistory, σ))
  let history := st.history.map (fun i => some i) ++ recIndexes
  let uniq := jsDedup history
  let top20 := (jsSortDesc uniq).take 20
  let s2 := if top20.isEmpty then st.s
    else setItem st.s (Pfx.tradeHistory, σ) (histEnc top20)
  let validStrings := jsDedup st.validStrings
  let s3 := setItem s2 (Pfx.encryptedOutputs, σ) (env.J.jenc validStrings)
  (st.validUtxos, s3)

/-- The body of the `getUtxos` promise: migrate once, loop from the
migrated storage (the current suffix is `n`), then finalize on success. -/
def runSync (env : SyncEnv) (hasEncKey : Bool) (o h n : String)
    (fuel : Nat) (s : Storage) : Except Storage (List Utxo × Storage) :=
  let s0 := migrateStorageKeys env.J hasEncKey o h n s
  match syncLoop env n fuel ⟨s0, [], [], []⟩ with
  | .error e => .error e
  | .ok st => .ok (finalizeSync env n st)

/-- Starting a fresh synchronization attempt: the `try … finally
{ getMyUtxosPromise = null }` wrapper — on success and on failure alike the
in-flight handle comes back cleared. -/
def runAttempt (env : SyncEnv) (hasEncKey : Bool) (o h n : String)
    (fuel : Nat) (s : Storage) :
    Except Storage (List Utxo × Storage)
      × Option (Except Storage (List Utxo × Storage)) :=
  match runSync env hasEncKey o h n fuel s with
  | .ok v => (.ok v, none)
  | .error e => (.error e, none)

/-- Model of `getUtxos(...)`: the single-flight protocol.  The pre-check proactively
discards an outstanding handle when an encryption key is now supplied while
hashed-format cache data exists with no encrypted-format counterpart; then
either attach to the surviving handle or run a fresh attempt. -/
def getUtxosCall (env : SyncEnv) (hasEncKey : Bool) (o h n : String)
    (fuel : Nat) (g : Option (Except Storage (List Utxo × Storage)))
    (s : Storage) :
    Except Storage (List Utxo × Storage)
      × Option (Except Storage (List Utxo × Storage)) :=
  let hasHashedData := (getItem s (Pfx.encryptedOutputs, h)).isSome
  let hasEncryptedData := (getItem s (Pfx.encryptedOutputs, n)).isSome
  let g' := if hasEncKey && decide (h ≠ n) && g.isSome
      && hasHashedData && !hasEncryptedData then none else g
  match g' with
  | some r => (r, some r)
  | none => runAttempt env hasEncKey o h n fuel s

theorem fetchUserUtxos_ok (env : SyncEnv) (σ : String) (s : Storage)
    (offset : Int) (r : FetchRes)
    (h : fetchUserUtxos env σ s offset = .ok r) :
    r.len = (env.pageAt offset).outputs.length ∧
    r.hasMore = (env.pageAt offset).hasMore := by
  simp only [fetchUserUtxos] at h
  repeat' split at h
  all_goals cases h
  all_goals exact ⟨rfl, rfl⟩

/-- C2: After a page fetch completes, the iteration persists
`previousOffset + rawPageLength` (the raw extracted item count, independent
of decryption outcomes), and the persisted write is part of the state the
loop then consults to break or continue. -/
theorem syncStep_persists_offset (env : SyncEnv) (σ : String)
    (st st' : LoopState) (cont : Bool) (fuel : Nat)
    (hs : syncStep env σ st = .ok (st', cont)) :
    getItem st'.s (Pfx.fetchOffset, σ)
      = some (toString (readOffset (getItem st.s (Pfx.fetchOffset, σ))
          + ((env.pageAt (readOffset (getItem st.s
              (Pfx.fetchOffset, σ)))).outputs.length : Int))) ∧
    cont = (env.pageAt (readOffset (getItem st.s
        (Pfx.fetchOffset, σ)))).hasMore ∧
    syncLoop env σ (fuel + 1) st
      = (if cont then syncLoop env σ fuel st' else .ok st') := by
  have hloop : syncLoop env σ (fuel + 1) st
      = (if cont then syncLoop env σ fuel st' else .ok st') := by
    show (match syncStep env σ st with
      | Except.error e => (Except.error e : Except Storage LoopState)
      | Except.ok (st', cont) =>
        if cont then syncLoop env σ fuel st' else Except.ok st') = _
    rw [hs]
  simp only [syncStep] at hs
  cases hf : fetchUserUtxos env σ st.s
      (readOffset (getItem st.s (Pfx.fetchOffset, σ))) with
  | error e =>
    rw [hf] at hs
    exact absurd hs (by simp)
  | ok fetched =>
    rw [hf] at hs
    obtain ⟨hlen, hmore⟩ := fetchUserUtxos_ok env σ st.s _ fetched hf
    cases hs
    refine ⟨?_, hmore, hloop⟩
    rw [← hlen]
    exact getItem_setItem_self _ _ _

/-- C7: When at least one ciphertext of the page decrypts but the
index-resolution response is missing/not an array (`resolve = none`) or has
the wrong length, `decrypt_outputs` throws, the sync iteration aborts with
no results, and the failure carries the storage untouched — the failing
page's offset is not advanced. -/
theorem decrypt_abort_no_offset_advance (env : SyncEnv) (σ : String)
    (st : LoopState)
    (hne : decSurvivors ((env.pageAt (readOffset (getItem st.s
        (Pfx.fetchOffset, σ)))).outputs.map (decOne env.dec)) ≠ [])
    (hbad : env.resolve ((decSurvivors ((env.pageAt (readOffset (getItem st.s
          (Pfx.fetchOffset, σ)))).outputs.map (decOne env.dec))).map Prod.snd)
        = none ∨
      ∃ l, env.resolve ((decSurvivors ((env.pageAt (readOffset (getItem st.s
            (Pfx.fetchOffset, σ)))).outputs.map (decOne env.dec))).map
              Prod.snd)
          = some l ∧
        l.length ≠ (decSurvivors ((env.pageAt (readOffset (getItem st.s
          (Pfx.fetchOffset, σ)))).outputs.map (decOne env.dec))).length) :
    decrypt_outputs env.dec env.resolve
        (env.pageAt (readOffset (getItem st.s (Pfx.fetchOffset, σ)))).outputs
      = .error () ∧
    syncStep env σ st = .error st.s := by
  have hE : (decSurvivors ((env.pageAt (readOffset (getItem st.s
      (Pfx.fetchOffset, σ)))).outputs.map (decOne env.dec))).isEmpty
      = false := by
    cases hq : (decSurvivors ((env.pageAt (readOffset (getItem st.s
        (Pfx.fetchOffset, σ)))).outputs.map (decOne env.dec))).isEmpty
    · rfl
    · exact absurd (List.isEmpty_iff.mp hq) hne
  have hdo : decrypt_outputs env.dec env.resolve
      (env.pageAt (readOffset (getItem st.s
        (Pfx.fetchOffset, σ)))).outputs = .error () := by
    rcases hbad with hb | ⟨l, hl, hlen⟩
    · simp [decrypt_outputs, hE, hb]
    · simp [decrypt_outputs, hE, hl, hlen]
  have hfu : fetchUserUtxos env σ st.s
      (readOffset (getItem st.s (Pfx.fetchOffset, σ))) = .error () := by
    simp only [fetchUserUtxos, hdo]
  refine ⟨hdo, ?_⟩
  simp [syncStep, hfu]

/-- C8: A synchronization attempt always terminates with the in-flight
handle cleared — on success and on failure alike — so a call that finds no
outstanding handle runs (and returns) a fresh attempt, again leaving no
handle behind. -/
theorem getUtxos_clears_inflight (env : SyncEnv) (hasEncKey : Bool)
    (o h n : String) (fuel : Nat) (s : Storage) :
    (runAttempt env hasEncKey o h n fuel s).2 = none ∧
    getUtxosCall env hasEncKey o h n fuel none s
      = runAttempt env hasEncKey o h n fuel s := by
  constructor
  · unfold runAttempt
    cases runSync env hasEncKey o h n fuel s <;> rfl
  · simp [getUtxosCall]

theorem zip_selfmap_filterMap {α : Type} (l : List α) (g : α → Bool) :
    (l.zip (l.map g)).filterMap (fun pf => if pf.2 then none else some pf.1)
      = l.filter (fun x => !g x) := by
  induction l with
  | nil => rfl
  | cons x xs ih =>
    simp only [List.map_cons, List.zip_cons_cons, List.filterMap_cons]
    cases hg : g x <;> simp [hg, ih]

/-- C1: `areUtxosSpent` returns one flag per note, in order, true
exactly when the ledger holds an account at either of the note's two
nullifier marker addresses; and a spent note — whatever its amount — is
never added to the iteration's unspent accumulator (everything added is
positive-amount with both markers absent). -/
theorem areUtxosSpent_spec (env : SyncEnv) (utxos : List Utxo) (σ : String)
    (st st' : LoopState) (cont : Bool)
    (hs : syncStep env σ st = .ok (st', cont)) :
    (areUtxosSpent env.pda0 env.pda1 env.acct utxos).length
        = utxos.length ∧
    areUtxosSpent env.pda0 env.pda1 env.acct utxos
      = utxos.map (fun u =>
          env.acct (env.pda0 u.nullifier) || env.acct (env.pda1 u.nullifier)) ∧
    ∀ u ∈ st'.validUtxos, u ∉ st.validUtxos →
      u.amount > 0 ∧ env.acct (env.pda0 u.nullifier) = false ∧
        env.acct (env.pda1 u.nullifier) = false := by
  have hmap := areUtxosSpent_eq_map env.pda0 env.pda1 env.acct utxos
  refine ⟨by rw [hmap]; simp, hmap, ?_⟩
  intro u hu hnu
  simp only [syncStep] at hs
  cases hf : fetchUserUtxos env σ st.s
      (readOffset (getItem st.s (Pfx.fetchOffset, σ))) with
  | error e =>
    rw [hf] at hs
    exact absurd hs (by simp)
  | ok fetched =>
    rw [hf] at hs
    cases hs
    simp only [List.mem_append] at hu
    rcases hu with hu | hu
    · exact absurd hu hnu
    · rw [areUtxosSpent_eq_map, List.map_map, zip_selfmap_filterMap]
        at hu
      rcases List.mem_map.mp hu with ⟨p, hp, rfl⟩
      rcases List.mem_filter.mp hp with ⟨hpz, hps⟩
      rcases List.mem_filter.mp hpz with ⟨_, hamt⟩
      refine ⟨by simpa using hamt, ?_, ?_⟩
      all_goals {
        simp only [Function.comp, isUtxoSpent, Bool.not_eq_true',
          Bool.or_eq_false_iff] at hps
        first
        | exact hps.1
        | exact hps.2
      }

theorem filterMap_id_map_some (l : List (Option Int))
    (h : ∀ x ∈ l, x ≠ none) : (l.filterMap id).map some = l := by
  induction l with
  | nil => rfl
  | cons x xs ih =>
    cases x with
    | none => exact absurd rfl (h none (List.mem_cons_self _ _))
    | some v =>
      simp only [List.filterMap_cons, id, List.map_cons]
      rw [ih (fun y hy => h y (List.mem_cons_of_mem _ hy))]

/-- A loop iteration writes only the fetch-offset key. -/
theorem syncStep_frame (env : SyncEnv) (σ : String) (st st' : LoopState)
    (cont : Bool) (hs : syncStep env σ st = .ok (st', cont)) (k : KName)
    (hk : k ≠ (Pfx.fetchOffset, σ)) : getItem st'.s k = getItem st.s k := by
  simp only [syncStep] at hs
  cases hf : fetchUserUtxos env σ st.s
      (readOffset (getItem st.s (Pfx.fetchOffset, σ))) with
  | error e =>
    rw [hf] at hs
    exact absurd hs (by simp)
  | ok fetched =>
    rw [hf] at hs
    cases hs
    exact getItem_setItem_ne _ _ _ _ hk

/-- The whole loop writes only the fetch-offset key. -/
theorem syncLoop_frame (env : SyncEnv) (σ : String) (fuel : Nat)
    (st st' : LoopState) (hl : syncLoop env σ fuel st = .ok st') (k : KName)
    (hk : k ≠ (Pfx.fetchOffset, σ)) : getItem st'.s k = getItem st.s k := by
  induction fuel generalizing st with
  | zero => exact absurd hl (by simp [syncLoop])
  | succ fuel ih =>
    simp only [syncLoop] at hl
    cases hstep : syncStep env σ st with
    | error e =>
      rw [hstep] at hl
      exact absurd hl (by simp)
    | ok r =>
      obtain ⟨st1, cont1⟩ := r
      rw [hstep] at hl
      cases cont1 with
      | true =>
        simp only [if_true] at hl
        rw [ih st1 hl, syncStep_frame env σ st st1 true hstep k hk]
      | false =>
        simp only [Bool.false_eq_true, if_false] at hl
        cases hl
        exact syncStep_frame env σ st st' false hstep k hk

theorem finalizeSync_history (env : SyncEnv) (σ : String) (st : LoopState)
    (hwf : ∀ x ∈ histRead (getItem st.s (Pfx.tradeHistory, σ)), x ≠ none) :
    ∃ L : List Int,
      (getItem (finalizeSync env σ st).2 (Pfx.tradeHistory, σ)
        = if L.isEmpty then getItem st.s (Pfx.tradeHistory, σ)
          else some (histEnc (L.map some))) ∧
      L.length ≤ 20 ∧ L.Nodup ∧
      L.length = min 20 (jsDedup (st.history.map some
        ++ histRead (getItem st.s (Pfx.tradeHistory, σ)))).length ∧
      (∀ x ∈ L, some x ∈ jsDedup (st.history.map some
        ++ histRead (getItem st.s (Pfx.tradeHistory, σ)))) ∧
      (∀ y ∈ jsDedup (st.history.map some
          ++ histRead (getItem st.s (Pfx.tradeHistory, σ))),
        y ∉ L.map some → ∀ x ∈ L, ∃ yv, y = some yv ∧ yv < x) := by
  set R := histRead (getItem st.s (Pfx.tradeHistory, σ)) with hR
  set S := jsDedup (st.history.map some ++ R) with hS
  set sorted := jsSortDesc S with hsorted
  set top := sorted.take 20 with htop
  have hSnn : ∀ x ∈ S, x ≠ none := by
    intro x hx
    have hx' := (mem_jsDedup _ _).mp hx
    rcases List.mem_append.mp hx' with hx1 | hx2
    · rcases List.mem_map.mp hx1 with ⟨i, _, rfl⟩
      simp
    · exact hwf x hx2
  have hperm : sorted.Perm S := List.perm_insertionSort jsr S
  have hsort : List.Sorted jsr sorted := List.sorted_insertionSort jsr S
  have hnodupS : S.Nodup := nodup_jsDedup _
  have hnodupSorted : sorted.Nodup := hperm.symm.nodup hnodupS
  have htopnn : ∀ x ∈ top, x ≠ none := fun x hx =>
    hSnn x (hperm.mem_iff.mp (List.mem_of_mem_take hx))
  have hLmap : (top.filterMap id).map some = top :=
    filterMap_id_map_some top htopnn
  have htopnodup : top.Nodup := (List.take_sublist 20 sorted).nodup hnodupSorted
  have hlen : (top.filterMap id).length = top.length := by
    have := congrArg List.length hLmap
    simpa using this
  refine ⟨top.filterMap id, ?_, ?_, ?_, ?_, ?_, ?_⟩
  · simp only [finalizeSync]
    rw [getItem_setItem_ne _ _ _ _ (by simp)]
    cases htt : top.isEmpty with
    | true =>
      have htnil : top = [] := List.isEmpty_iff.mp htt
      have hLnil : top.filterMap id = [] := by
        rw [htnil]
        rfl
      simp [htt, hLnil]
    | false =>
      have hLE : (top.filterMap id).isEmpty = false := by
        cases hq : (top.filterMap id).isEmpty with
        | false => rfl
        | true =>
          have : top = [] := by
            rw [← hLmap, List.isEmpty_iff.mp hq]
            rfl
          rw [this] at htt
          simp at htt
      simp only [htt, hLE, Bool.false_eq_true, if_false, hLmap]
      exact getItem_setItem_self _ _ _
  · rw [hlen]
    exact List.length_take_le 20 sorted
  · refine List.Nodup.of_map some ?_
    rw [hLmap]
    exact htopnodup
  · rw [hlen, htop, List.length_take, hperm.length_eq]
  · intro x hx
    have : some x ∈ top := by
      rw [← hLmap]
      exact List.mem_map_of_mem some hx
    exact hperm.mem_iff.mp (List.mem_of_mem_take this)
  · intro y hy hyn x hx
    have hys : y ∈ sorted := hperm.mem_iff.mpr hy
    have hxt : some x ∈ top := by
      rw [← hLmap]
      exact List.mem_map_of_mem some hx
    have hsplit : y ∈ sorted.take 20 ++ sorted.drop 20 := by
      rw [List.take_append_drop]
      exact hys
    have hyd : y ∈ sorted.drop 20 := by
      rcases List.mem_append.mp hsplit with hyt | hyd
      · exact absurd (by rw [hLmap]; exact hyt) hyn
      · exact hyd
    have hrel : jsr (some x) y :=
      hsort.rel_of_mem_take_of_mem_drop hxt hyd
    cases hy0 : y with
    | none => exact absurd hy0 (hSnn y hy)
    | some yv =>
      subst hy0
      have hle : yv ≤ x := by
        simpa [jsr, jsDescLe] using hrel
      have hne2 : (some yv : Option Int) ≠ some x := by
        have hnd := hnodupSorted
        rw [← List.take_append_drop 20 sorted] at hnd
        have hdisj := (List.nodup_append.mp hnd).2.2
        intro heq
        exact hdisj (heq ▸ hxt) hyd
      exact ⟨yv, rfl, lt_of_le_of_ne hle
        (fun he => hne2 (by rw [he]))⟩

/-- C6: After every successful synchronization the persisted
recent-activity value holds at most 20 distinct integers, and they are
exactly the numerically largest among the indices collected during the sync
united with the previously persisted set (which the loop itself never
touches). -/
theorem runSync_history_top20 (env : SyncEnv) (hasEncKey : Bool)
    (o h n : String) (fuel : Nat) (s : Storage) (utxos : List Utxo)
    (s' : Storage)
    (hrun : runSync env hasEncKey o h n fuel s = .ok (utxos, s')) :
    ∃ st' : LoopState,
      syncLoop env n fuel
          ⟨migrateStorageKeys env.J hasEncKey o h n s, [], [], []⟩
        = .ok st' ∧
      utxos = st'.validUtxos ∧
      getItem st'.s (Pfx.tradeHistory, n)
        = getItem (migrateStorageKeys env.J hasEncKey o h n s)
            (Pfx.tradeHistory, n) ∧
      ((∀ x ∈ histRead (getItem st'.s (Pfx.tradeHistory, n)), x ≠ none) →
        ∃ L : List Int,
          (getItem s' (Pfx.tradeHistory, n)
            = if L.isEmpty then getItem st'.s (Pfx.tradeHistory, n)
              else some (histEnc (L.map some))) ∧
          L.length ≤ 20 ∧ L.Nodup ∧
          L.length = min 20 (jsDedup (st'.history.map some
            ++ histRead (getItem st'.s (Pfx.tradeHistory, n)))).length ∧
          (∀ x ∈ L, some x ∈ jsDedup (st'.history.map some
            ++ histRead (getItem st'.s (Pfx.tradeHistory, n)))) ∧
          (∀ y ∈ jsDedup (st'.history.map some
              ++ histRead (getItem st'.s (Pfx.tradeHistory, n))),
            y ∉ L.map some → ∀ x ∈ L, ∃ yv, y = some yv ∧ yv < x)) := by
  simp only [runSync] at hrun
  cases hl : syncLoop env n fuel
      ⟨migrateStorageKeys env.J hasEncKey o h n s, [], [], []⟩ with
  | error e =>
    rw [hl] at hrun
    exact absurd hrun (by simp)
  | ok st' =>
    rw [hl] at hrun
    have hfin : finalizeSync env n st' = (utxos, s') := Except.ok.inj hrun
    refine ⟨st', rfl, (congrArg Prod.fst hfin).symm, ?_, ?_⟩
    · exact syncLoop_frame env n fuel _ st' hl _ (by simp)
    · intro hwf
      have hmain := finalizeSync_history env n st' hwf
      rw [congrArg Prod.snd hfin] at hmain
      exact hmain

/-- A concrete test environment: one final page `["a", "b"]`, every
non-`"x"` ciphertext decrypts to an amount-1 note, the resolver assigns
index 3 to `"a"` and 9 to the rest, and the ledger holds an account exactly
at `"b"`'s first marker address (so `"b"` is spent). -/
def envC2 : SyncEnv :=
  ⟨fun off => if off = 0 then ⟨["a", "b"], false⟩ else ⟨[], false⟩,
   fun str => if str = "x" then none else some ⟨1, 5, str⟩,
   fun ls => some (ls.map (fun e => some (if e = "a" then 3 else 9))),
   fun nf => "p0" ++ nf,
   fun nf => "p1" ++ nf,
   fun a => a = "p0b",
   ⟨fun _ => none, fun _ => "[]"⟩⟩

/-- Witness for C2: from empty storage, one page of two raw items persists
offset `0 + 2`, and both break and continue consult the updated state. -/
theorem syncStep_persists_offset_witness :
    getItem
        (⟨[((Pfx.fetchOffset, "S"), "2")], [⟨1, 3, "a"⟩], ["a"],
          [3, 9]⟩ : LoopState).s (Pfx.fetchOffset, "S")
      = some (toString (readOffset (getItem
            (⟨[], [], [], []⟩ : LoopState).s (Pfx.fetchOffset, "S"))
          + ((envC2.pageAt (readOffset (getItem
              (⟨[], [], [], []⟩ : LoopState).s
                (Pfx.fetchOffset, "S")))).outputs.length : Int))) ∧
    false = (envC2.pageAt (readOffset (getItem
        (⟨[], [], [], []⟩ : LoopState).s (Pfx.fetchOffset, "S")))).hasMore ∧
    syncLoop envC2 "S" (0 + 1) ⟨[], [], [], []⟩
      = (if false then
          syncLoop envC2 "S" 0
            ⟨[((Pfx.fetchOffset, "S"), "2")], [⟨1, 3, "a"⟩], ["a"], [3, 9]⟩
        else .ok ⟨[((Pfx.fetchOffset, "S"), "2")], [⟨1, 3, "a"⟩], ["a"],
          [3, 9]⟩) :=
  syncStep_persists_offset envC2 "S" ⟨[], [], [], []⟩
    ⟨[((Pfx.fetchOffset, "S"), "2")], [⟨1, 3, "a"⟩], ["a"], [3, 9]⟩
    false 0 (by rfl)

/-- Witness for C1: the positive-amount note `"b"` whose first marker
account exists is excluded from the unspent accumulator. -/
theorem areUtxosSpent_spec_witness :
    (areUtxosSpent envC2.pda0 envC2.pda1 envC2.acct [⟨2, 0, "b"⟩]).length
        = ([⟨2, 0, "b"⟩] : List Utxo).length ∧
    areUtxosSpent envC2.pda0 envC2.pda1 envC2.acct [⟨2, 0, "b"⟩]
      = ([⟨2, 0, "b"⟩] : List Utxo).map (fun u =>
          envC2.acct (envC2.pda0 u.nullifier)
            || envC2.acct (envC2.pda1 u.nullifier)) ∧
    ∀ u ∈ (⟨[((Pfx.fetchOffset, "S"), "2")], [⟨1, 3, "a"⟩], ["a"],
        [3, 9]⟩ : LoopState).validUtxos,
      u ∉ (⟨[], [], [], []⟩ : LoopState).validUtxos →
      u.amount > 0 ∧ envC2.acct (envC2.pda0 u.nullifier) = false ∧
        envC2.acct (envC2.pda1 u.nullifier) = false :=
  areUtxosSpent_spec envC2 [⟨2, 0, "b"⟩] "S" ⟨[], [], [], []⟩
    ⟨[((Pfx.fetchOffset, "S"), "2")], [⟨1, 3, "a"⟩], ["a"], [3, 9]⟩
    false (by rfl)

/-- A test environment whose index-resolution endpoint returns a malformed
response (`resolve = none`). -/
def envC7 : SyncEnv :=
  ⟨fun _ => ⟨["a"], false⟩,
   fun str => if str = "x" then none else some ⟨1, 5, str⟩,
   fun _ => none,
   fun nf => "p0" ++ nf,
   fun nf => "p1" ++ nf,
   fun _ => false,
   ⟨fun _ => none, fun _ => "[]"⟩⟩

/-- Witness for C7: with one decryptable ciphertext and a malformed index
response, the decrypt call throws and the iteration fails with storage
untouched. -/
theorem decrypt_abort_no_offset_advance_witness :
    decrypt_outputs envC7.dec envC7.resolve
        (envC7.pageAt (readOffset (getItem
          (⟨[], [], [], []⟩ : LoopState).s (Pfx.fetchOffset, "S")))).outputs
      = .error () ∧
    syncStep envC7 "S" ⟨[], [], [], []⟩
      = .error (⟨[], [], [], []⟩ : LoopState).s :=
  decrypt_abort_no_offset_advance envC7 "S" ⟨[], [], [], []⟩
    (by decide) (Or.inl rfl)

/-- Witness for C6: syncing indices `3, 9` over a persisted set `"5,3"`
leaves exactly the union's largest distinct values, `"9,5,3"`. -/
theorem runSync_history_top20_witness :
    ∃ st' : LoopState,
      syncLoop envC2 "S" 1
          ⟨migrateStorageKeys envC2.J false "O" "H" "S"
            [((Pfx.tradeHistory, "S"), "5,3")], [], [], []⟩
        = .ok st' ∧
      ([⟨1, 3, "a"⟩] : List Utxo) = st'.validUtxos ∧
      getItem st'.s (Pfx.tradeHistory, "S")
        = getItem (migrateStorageKeys envC2.J false "O" "H" "S"
            [((Pfx.tradeHistory, "S"), "5,3")]) (Pfx.tradeHistory, "S") ∧
      ((∀ x ∈ histRead (getItem st'.s (Pfx.tradeHistory, "S")), x ≠ none) →
        ∃ L : List Int,
          (getItem [((Pfx.tradeHistory, "S"), "9,5,3"),
              ((Pfx.fetchOffset, "S"), "2"),
              ((Pfx.encryptedOutputs, "S"), "[]")] (Pfx.tradeHistory, "S")
            = if L.isEmpty then getItem st'.s (Pfx.tradeHistory, "S")
              else some (histEnc (L.map some))) ∧
          L.length ≤ 20 ∧ L.Nodup ∧
          L.length = min 20 (jsDedup (st'.history.map some
            ++ histRead (getItem st'.s (Pfx.tradeHistory, "S")))).length ∧
          (∀ x ∈ L, some x ∈ jsDedup (st'.history.map some
            ++ histRead (getItem st'.s (Pfx.tradeHistory, "S")))) ∧
          (∀ y ∈ jsDedup (st'.history.map some
              ++ histRead (getItem st'.s (Pfx.tradeHistory, "S"))),
            y ∉ L.map some → ∀ x ∈ L, ∃ yv, y = some yv ∧ yv < x)) :=
  runSync_history_top20 envC2 false "O" "H" "S" 1
    [((Pfx.tradeHistory, "S"), "5,3")] [⟨1, 3, "a"⟩]
    [((Pfx.tradeHistory, "S"), "9,5,3"), ((Pfx.fetchOffset, "S"), "2"),
      ((Pfx.encryptedOutputs, "S"), "[]")] (by rfl)
